import Mathlib

/-!
A shallow embedding of `24.py`, a brute-force solver for the card game "24",
together with proofs about its behaviour.

Modelling conventions:
* Python exceptions become `Except` values.  `ValueError` raised by
  `get_value` for a non-integer division is `EvalErr.nonIntegerDivision`;
  the `assert` in `get_value` is `EvalErr.assertionError`; Python's
  `ZeroDivisionError` (raised by `value % 0`) is `EvalErr.zeroDivision`.
* Python 2 integers are `Int`; Python 2 `%` and `/` on ints are floor mod
  and floor division, i.e. `Int.fmod` and `Int.fdiv`.
* `itertools.combinations_with_replacement` and `itertools.permutations`
  are embedded as structurally recursive functions producing the same
  sequences the itertools documentation specifies.
* Python's `set` of solution strings is modelled as a duplicate-free list
  (`insertSol` inserts only if absent); set iteration order is arbitrary in
  Python, so only membership and absence of duplicates are meaningful.
-/

deriving instance DecidableEq for Except

/-- The four operator symbols, the keys of `OPERATOR_MAPPING` in `24.py`. -/
inductive Op where
  | add
  | sub
  | mul
  | div
  deriving DecidableEq, Repr

/-- The display symbol of an operator (the dict key string itself). -/
def Op.symbol : Op → String
  | .add => "+"
  | .sub => "-"
  | .mul => "*"
  | .div => "/"

/-- The keys of the module-level dict `OPERATOR_MAPPING` in the order CPython
2.6/2.7 iterates them.  The four one-character keys hash to table slots
2 ("+"), 3 ("*"), 4 ("-") and 6 ("/") in an 8-slot dict, so iteration
yields "+", "*", "-", "/". -/
def OPERATOR_MAPPING_keys : List Op := [.add, .mul, .sub, .div]

/-- A playing card as built by `Card.__init__`: `rank`, `suit` and the
derived integer `value`. -/
structure Card where
  rank : String
  suit : String
  value : Int
  deriving DecidableEq, Repr

namespace Card

/-- The rank table `Card.RANKS` of `24.py`, as an association list. -/
def RANKS : List (String × Int) :=
  [("A", 1), ("2", 2), ("3", 3), ("4", 4), ("5", 5), ("6", 6), ("7", 7),
   ("8", 8), ("9", 9), ("10", 10), ("J", 10), ("Q", 10), ("K", 10)]

/-- The suit tuple `Card.SUITS` of `24.py`. -/
def SUITS : List String := ["h", "c", "d", "s"]

/-- The two `ValueError`s `Card.__init__` can raise. -/
inductive SpecError where
  | invalidRank (r : String)
  | invalidSuit (s : String)
  deriving DecidableEq, Repr

/-- `Card.__init__`: validate the rank, then the suit, then derive the value
from the rank table. -/
def init (rank suit : String) : Except SpecError Card :=
  match RANKS.lookup rank with
  | none => .error (.invalidRank rank)
  | some v =>
    if suit ∈ SUITS then .ok ⟨rank, suit, v⟩
    else .error (.invalidSuit suit)

end Card

/-- The exceptions `get_value` can raise: the precondition `assert`
(an `AssertionError`), the `ValueError` for a non-integer division, and the
`ZeroDivisionError` Python would raise on `value % 0`. -/
inductive EvalErr where
  | assertionError
  | nonIntegerDivision
  | zeroDivision
  deriving DecidableEq, Repr

/-- One iteration of the loop body of `get_value`: the division guard
`operators[i] == "/" and value % c.value != 0` followed by
`OPERATOR_MAPPING[operators[i]](value, c.value)`.  Python 2 `%` and `/` on
ints are floor mod and floor division (`Int.fmod`, `Int.fdiv`); `value % 0`
raises `ZeroDivisionError` before the `!= 0` comparison. -/
def step (value : Int) (op : Op) (w : Int) : Except EvalErr Int :=
  match op with
  | .div =>
    if w = 0 then .error .zeroDivision
    else if value.fmod w = 0 then .ok (value.fdiv w)
    else .error .nonIntegerDivision
  | .add => .ok (value + w)
  | .sub => .ok (value - w)
  | .mul => .ok (value * w)

/-- The `for i, c in enumerate(cards[1:])` loop of `get_value`, folding the
accumulator left-to-right.  A card left without a matching operator would be
an `IndexError` in Python; it is unreachable behind the assert and is
modelled as `assertionError`. -/
def evalLoop : Int → List Card → List Op → Except EvalErr Int
  | value, [], _ => .ok value
  | value, c :: cs, o :: os =>
    match step value o c.value with
    | .ok v => evalLoop v cs os
    | .error e => .error e
  | _, _ :: _, [] => .error .assertionError

/-- `get_value(cards, operators)`: assert `len(cards) == len(operators)+1`,
start the accumulator at `cards[0].value`, and fold the operators in order
over the remaining cards. -/
def get_value (cards : List Card) (operators : List Op) : Except EvalErr Int :=
  if cards.length = operators.length + 1 then
    match cards with
    | c :: rest => evalLoop c.value rest operators
    | [] => .error .assertionError
  else .error .assertionError

/-- `itertools.combinations_with_replacement(pool, r)`: all length-`r`
tuples of elements of `pool` whose positions in `pool` are non-decreasing,
in lexicographic order of those positions.  Each tuple starts with the head
of some suffix of `pool` and continues with a tuple drawn from that same
suffix. -/
def combinations_with_replacement : List α → Nat → List (List α)
  | _, 0 => [[]]
  | pool, n + 1 =>
    pool.tails.flatMap (fun suf =>
      match suf with
      | [] => []
      | x :: xs => (combinations_with_replacement (x :: xs) n).map (x :: ·))

/-- The candidate loop of `get_possible_ops`: try each operator tuple;
`except ValueError: pass` silently drops `nonIntegerDivision`, any other
exception propagates, and tuples evaluating to the target are collected in
enumeration order. -/
def opsLoop (cards : List Card) (target : Int) :
    List (List Op) → Except EvalErr (List (List Op))
  | [] => .ok []
  | ops :: rest =>
    match get_value cards ops with
    | .error .nonIntegerDivision => opsLoop cards target rest
    | .error e => .error e
    | .ok v =>
      match opsLoop cards target rest with
      | .error e => .error e
      | .ok l => .ok (if v = target then ops :: l else l)

/-- `get_possible_ops(cards, target_value)`: filter the
`combinations_with_replacement` of the operator alphabet of length
`len(cards)-1` down to the tuples that evaluate to the target.  (For an
empty hand Python raises at the itertools call; here truncated subtraction
makes the length 0 and the `assertionError` from `get_value` surfaces
instead — in both accounts the call fails and not with
`nonIntegerDivision`.) -/
def get_possible_ops (cards : List Card) (target_value : Int) :
    Except EvalErr (List (List Op)) :=
  opsLoop cards target_value
    (combinations_with_replacement OPERATOR_MAPPING_keys (cards.length - 1))

/-- `picks l` lists, for each position `i` of `l` in order, the element at
`i` together with `l` with position `i` removed. -/
def picks : List α → List (α × List α)
  | [] => []
  | x :: xs => (x, xs) :: (picks xs).map (fun p => (p.1, x :: p.2))

/-- Fuel-indexed core of `itertools.permutations`: choose each element in
position order as the head, then permute the rest. -/
def pyPermAux : Nat → List α → List (List α)
  | 0, _ => [[]]
  | n + 1, l => (picks l).flatMap (fun p => (pyPermAux n p.2).map (p.1 :: ·))

/-- `itertools.permutations(l)`: every ordering of the positions of `l`, in
lexicographic order of the chosen positions.  Elements are treated
positionally, so equal cards still give distinct entries, exactly as in
Python. -/
def pyPermutations (l : List α) : List (List α) := pyPermAux l.length l

/-- The solution string of `solve`: ranks and operator symbols interleaved
in evaluation order and joined with spaces. -/
def renderSol (card_list : List Card) (op_list : List Op) : String :=
  String.intercalate " "
    ((card_list.zip op_list).foldr
      (fun p acc => p.1.rank :: p.2.symbol :: acc)
      [((card_list.getLast?).map Card.rank).getD ""])

/-- `solutions.add(s)` on the Python set, modelled on a duplicate-free
list: insert only if absent. -/
def insertSol (s : String) (solutions : List String) : List String :=
  if s ∈ solutions then solutions else solutions ++ [s]

/-- The outer loop of `solve`: for each permutation, add the string of every
matching operator tuple; an exception from `get_possible_ops`
propagates. -/
def permLoop (target : Int) :
    List (List Card) → List String → Except EvalErr (List String)
  | [], solutions => .ok solutions
  | card_list :: rest, solutions =>
    match get_possible_ops card_list target with
    | .error e => .error e
    | .ok opss =>
      permLoop target rest
        (opss.foldl (fun acc op_list => insertSol (renderSol card_list op_list) acc)
          solutions)

/-- `solve(cards, target_value)`: the set of solution strings over all
permutations of the hand. -/
def solve (cards : List Card) (target_value : Int) :
    Except EvalErr (List String) :=
  permLoop target_value (pyPermutations cards) []

/-- The hand of four aces from the spec's impossibility scenario, one of
each suit, each with the table value of rank "A". -/
def fourAces : List Card :=
  [⟨"A", "h", 1⟩, ⟨"A", "c", 1⟩, ⟨"A", "d", 1⟩, ⟨"A", "s", 1⟩]

/-- A three-card hand of ranks 3, A, 2 (values 3, 1, 2). -/
def hand312 : List Card := [⟨"3", "h", 3⟩, ⟨"A", "c", 1⟩, ⟨"2", "d", 2⟩]

/-- A three-card hand of ranks 2, 3, 4 (values 2, 3, 4). -/
def hand234 : List Card := [⟨"2", "h", 2⟩, ⟨"3", "h", 3⟩, ⟨"4", "h", 4⟩]

example : combinations_with_replacement ["a", "b", "c"] 2 =
    [["a", "a"], ["a", "b"], ["a", "c"], ["b", "b"], ["b", "c"], ["c", "c"]] := by
  decide

example : pyPermutations [1, 2, 3] =
    [[1, 2, 3], [1, 3, 2], [2, 1, 3], [2, 3, 1], [3, 1, 2], [3, 2, 1]] := by
  decide

/-- C1: the claim asserts full Cartesian coverage of the operator gaps, but
`itertools.combinations_with_replacement` enumerates only the tuples whose
positions in the alphabet are non-decreasing: for two gaps it yields 10 of
the 16 ordered pairs, the ordered assignment `(*, +)` is never generated,
and consequently `get_possible_ops` misses targets only such an assignment
reaches — on the hand 2, 3, 4 the assignment `(*, +)` evaluates to 10 yet
`get_possible_ops` reports no solution for target 10. -/
theorem get_possible_ops_not_cartesian :
    (combinations_with_replacement OPERATOR_MAPPING_keys 2).length = 10 ∧
    (combinations_with_replacement OPERATOR_MAPPING_keys 2).contains
      [Op.mul, Op.add] = false ∧
    get_value hand234 [Op.mul, Op.add] = .ok 10 ∧
    get_possible_ops hand234 10 = .ok [] := by
  decide

/-- C2: the claim requires `solve` to contain every rank/operator string
some permutation plus operator assignment evaluates to the target, but on
the hand 3, A, 2 with target 4 the string "3 - A * 2" evaluates
left-to-right to 4 (via the permutation 3, A, 2 and the assignment
`(-, *)`) and is nevertheless absent from the result, because `(-, *)` is
not position-non-decreasing in the operator alphabet and is never
enumerated. -/
theorem solve_misses_producible_string :
    get_value hand312 [Op.sub, Op.mul] = .ok 4 ∧
    renderSol hand312 [Op.sub, Op.mul] = "3 - A * 2" ∧
    ((solve hand312 4).toOption.getD []).contains "3 - A * 2" = false := by
  decide

/-- C3: `get_value` is a strict left-to-right fold: on three cards and two
operators it applies the first operator to the first two values and the
second operator to that result and the third value, with no conventional
precedence — in particular 2 + 3 * 4 folds to (2 + 3) * 4 = 20, not 14. -/
theorem get_value_left_to_right_fold :
    (∀ (c1 c2 c3 : Card) (o1 o2 : Op),
      get_value [c1, c2, c3] [o1, o2] =
        (step c1.value o1 c2.value).bind fun a => step a o2 c3.value) ∧
    get_value hand234 [Op.add, Op.mul] = .ok 20 := by
  constructor
  · intro c1 c2 c3 o1 o2
    show evalLoop c1.value [c2, c3] [o1, o2] = _
    cases h1 : step c1.value o1 c2.value with
    | error e => simp [evalLoop, h1, Except.bind]
    | ok a =>
      cases h2 : step a o2 c3.value with
      | error e => simp [evalLoop, h1, h2, Except.bind]
      | ok b => simp [evalLoop, h1, h2, Except.bind]
  · decide

/-- C4: a division step fails with `nonIntegerDivision` exactly when the
accumulator is not evenly divisible by the card's (positive) value; when it
is divisible the step returns the exact quotient, and addition, subtraction
and multiplication always succeed with ordinary integer arithmetic. -/
theorem step_division_semantics (v w : Int) (hw : 0 < w) :
    (step v Op.div w = .error .nonIntegerDivision ↔ ¬ w ∣ v) ∧
    (w ∣ v → step v Op.div w = .ok (v / w) ∧ w * (v / w) = v) ∧
    step v Op.add w = .ok (v + w) ∧
    step v Op.sub w = .ok (v - w) ∧
    step v Op.mul w = .ok (v * w) := by
  have hw0 : w ≠ 0 := by omega
  refine ⟨?_, ?_, rfl, rfl, rfl⟩
  · rw [step, if_neg hw0, Int.fmod_eq_emod v hw.le]
    by_cases hz : v % w = 0
    · simp [hz, Int.dvd_of_emod_eq_zero hz]
    · rw [if_neg hz]
      exact ⟨fun _ hdvd => hz (Int.emod_eq_zero_of_dvd hdvd), fun _ => rfl⟩
  · intro hdvd
    refine ⟨?_, Int.mul_ediv_cancel' hdvd⟩
    rw [step, if_neg hw0, Int.fmod_eq_emod v hw.le,
      if_pos (Int.emod_eq_zero_of_dvd hdvd), Int.fdiv_eq_ediv v hw.le]

/-- Witness for C4 at concrete inputs: 7 / 3 fails as a non-integer
division, 6 / 3 succeeds with the exact quotient, and 7 + 3 succeeds. -/
theorem step_division_semantics_spot :
    step 7 Op.div 3 = .error .nonIntegerDivision ∧
    (step 6 Op.div 3 = .ok (6 / 3) ∧ (3 : Int) * (6 / 3) = 6) ∧
    step 7 Op.add 3 = .ok (7 + 3) :=
  ⟨(step_division_semantics 7 3 (by decide)).1.mpr (by decide),
   (step_division_semantics 6 3 (by decide)).2.1 (by decide),
   (step_division_semantics 7 3 (by decide)).2.2.1⟩

/-- C5: constructing a card with a rank in the table and a suit in the suit
tuple succeeds and takes its value from the fixed rank table; a rank outside
the table or a suit outside the tuple fails with the corresponding invalid
card specification error. -/
theorem Card_init_table (r s : String) :
    (∀ v : Int, Card.RANKS.lookup r = some v → s ∈ Card.SUITS →
      Card.init r s = .ok ⟨r, s, v⟩) ∧
    (Card.RANKS.lookup r = none →
      Card.init r s = .error (.invalidRank r)) ∧
    (∀ v : Int, Card.RANKS.lookup r = some v → s ∉ Card.SUITS →
      Card.init r s = .error (.invalidSuit s)) := by
  refine ⟨?_, ?_, ?_⟩
  · intro v hv hs
    simp [Card.init, hv, hs]
  · intro hr
    simp [Card.init, hr]
  · intro v hv hs
    simp [Card.init, hv, hs]

/-- Witness for C5: the queen of diamonds is built with value 10, rank "X"
is rejected, suit "x" is rejected. -/
theorem Card_init_table_spot :
    Card.init "Q" "d" = .ok ⟨"Q", "d", 10⟩ ∧
    Card.init "X" "h" = .error (.invalidRank "X") ∧
    Card.init "A" "x" = .error (.invalidSuit "x") :=
  ⟨(Card_init_table "Q" "d").1 10 (by decide) (by decide),
   (Card_init_table "X" "h").2.1 (by decide),
   (Card_init_table "A" "x").2.2 1 (by decide) (by decide)⟩

/-- C7: whenever the operator count is not exactly one less than the card
count, `get_value` fails its precondition assert instead of truncating. -/
theorem get_value_asserts_length (cards : List Card) (ops : List Op)
    (h : cards.length ≠ ops.length + 1) :
    get_value cards ops = .error .assertionError := by
  simp [get_value, h]

/-- Witness for C7: four cards with a single operator hit the assert. -/
theorem get_value_asserts_length_spot :
    get_value fourAces [Op.add] = .error .assertionError :=
  get_value_asserts_length fourAces [Op.add] (by decide)

/-- C8: on the hand of four aces with target 24 the solver returns the
empty set: no left-to-right combination of four 1's reaches 24. -/
theorem solve_four_aces_empty :
    Card.init "A" "h" = .ok ⟨"A", "h", 1⟩ ∧
    solve fourAces 24 = .ok [] := by
  constructor
  · decide
  · decide

lemma opsLoop_ne_nonIntegerDivision (cards : List Card) (t : Int) :
    ∀ l : List (List Op),
      opsLoop cards t l ≠ .error .nonIntegerDivision := by
  intro l
  induction l with
  | nil => simp [opsLoop]
  | cons ops rest ih =>
    rw [opsLoop]
    cases h : get_value cards ops with
    | error e =>
      cases e with
      | assertionError => exact fun hc => EvalErr.noConfusion (Except.error.inj hc)
      | nonIntegerDivision => exact ih
      | zeroDivision => exact fun hc => EvalErr.noConfusion (Except.error.inj hc)
    | ok v =>
      cases h2 : opsLoop cards t rest with
      | error e => exact fun hc => ih (h2.trans hc)
      | ok l2 => exact fun hc => Except.noConfusion hc

lemma get_possible_ops_ne_nonIntegerDivision (cards : List Card) (t : Int) :
    get_possible_ops cards t ≠ .error .nonIntegerDivision :=
  opsLoop_ne_nonIntegerDivision cards t _

lemma permLoop_ne_nonIntegerDivision (t : Int) :
    ∀ (ps : List (List Card)) (acc : List String),
      permLoop t ps acc ≠ .error .nonIntegerDivision := by
  intro ps
  induction ps with
  | nil => simp [permLoop]
  | cons p rest ih =>
    intro acc
    rw [permLoop]
    cases h : get_possible_ops p t with
    | error e =>
      intro hc
      exact get_possible_ops_ne_nonIntegerDivision p t
        (h.trans (by injection hc with h2; rw [h2]))
    | ok opss => exact ih _

lemma opsLoop_mem_eval (cards : List Card) (t : Int) :
    ∀ (l : List (List Op)) (r : List (List Op)) (ops : List Op),
      opsLoop cards t l = .ok r → ops ∈ r → get_value cards ops = .ok t := by
  intro l
  induction l with
  | nil =>
    intro r ops hr hmem
    rw [opsLoop] at hr
    injection hr with hr
    subst hr
    cases hmem
  | cons o rest ih =>
    intro r ops hr hmem
    rw [opsLoop] at hr
    cases h : get_value cards o with
    | error e =>
      cases e <;> rw [h] at hr <;> first
        | exact ih r ops hr hmem
        | cases hr
    | ok v =>
      rw [h] at hr
      cases h2 : opsLoop cards t rest with
      | error e => rw [h2] at hr; cases hr
      | ok l2 =>
        rw [h2] at hr
        injection hr with hr
        subst hr
        by_cases hv : v = t
        · rw [if_pos hv] at hmem
          rcases List.mem_cons.mp hmem with heq | hmem2
          · subst heq; rw [h, hv]
          · exact ih l2 ops h2 hmem2
        · rw [if_neg hv] at hmem
          exact ih l2 ops h2 hmem

/-- C6: `nonIntegerDivision` never escapes `get_possible_ops` (nor `solve`):
the `except ValueError` clause swallows it, and any operator tuple that is
in a returned result list really evaluated to the target (failing
candidates are silently excluded, not propagated). -/
theorem nonIntegerDivision_never_escapes (cards : List Card) (t : Int) :
    ((get_possible_ops cards t = .error .nonIntegerDivision) = False) ∧
    ((solve cards t = .error .nonIntegerDivision) = False) ∧
    ∀ (l : List (List Op)) (ops : List Op),
      get_possible_ops cards t = .ok l → ops ∈ l →
      get_value cards ops = .ok t :=
  ⟨eq_false (get_possible_ops_ne_nonIntegerDivision cards t),
   eq_false (permLoop_ne_nonIntegerDivision t (pyPermutations cards) []),
   fun l ops h hm => opsLoop_mem_eval cards t _ l ops h hm⟩

/-- Witness for C6: on the hand 2, 3 with target 5 the returned tuple
`(+,)` indeed evaluates to 5. -/
theorem nonIntegerDivision_never_escapes_spot :
    get_value [⟨"2", "h", 2⟩, ⟨"3", "c", 3⟩] [Op.add] = .ok 5 :=
  (nonIntegerDivision_never_escapes [⟨"2", "h", 2⟩, ⟨"3", "c", 3⟩] 5).2.2
    [[Op.add]] [Op.add] (by decide) (by decide)

lemma lookup_all_values {P : Int → Prop} :
    ∀ l : List (String × Int), (∀ p ∈ l, P p.2) →
      ∀ (r : String) (v : Int), l.lookup r = some v → P v := by
  intro l
  induction l with
  | nil => intro _ r v h; simp at h
  | cons p tl ih =>
    intro hall r v h
    rw [show p = (p.1, p.2) from rfl, List.lookup_cons] at h
    cases hb : r == p.1 with
    | true =>
      rw [hb] at h
      injection h with h
      exact h ▸ hall p (List.mem_cons_self p tl)
    | false =>
      rw [hb] at h
      exact ih (fun q hq => hall q (List.mem_cons_of_mem p hq)) r v h

lemma step_error_cases (v w : Int) (o : Op) (e : EvalErr) (hw : 0 < w)
    (h : step v o w = .error e) : e = .nonIntegerDivision := by
  cases o with
  | div =>
    rw [step, if_neg (by omega : w ≠ 0)] at h
    by_cases hz : v.fmod w = 0
    · rw [if_pos hz] at h; cases h
    · rw [if_neg hz] at h; injection h with h; exact h.symm
  | add => cases h
  | sub => cases h
  | mul => cases h

lemma evalLoop_error_cases :
    ∀ (cs : List Card) (os : List Op) (v : Int) (e : EvalErr),
      (∀ c ∈ cs, 1 ≤ c.value) → evalLoop v cs os = .error e →
      e = .nonIntegerDivision ∨ e = .assertionError := by
  intro cs
  induction cs with
  | nil => intro os v e _ h; cases os <;> cases h
  | cons c tl ih =>
    intro os v e hall h
    cases os with
    | nil =>
      rw [evalLoop] at h
      injection h with h
      exact Or.inr h.symm
    | cons o os' =>
      rw [evalLoop] at h
      cases hs : step v o c.value with
      | error e2 =>
        rw [hs] at h
        injection h with h
        subst h
        exact Or.inl (step_error_cases v c.value o e2
          (hall c (List.mem_cons_self c tl)) hs)
      | ok v2 =>
        rw [hs] at h
        exact ih os' v2 e (fun x hx => hall x (List.mem_cons_of_mem c hx)) h

/-- C10: every successfully constructed card has value at least 1 (the rank
table's minimum), so the divisor in every division step of `get_value` is
positive and a zero division is impossible: for cards with positive values
the only failures of `get_value` are the non-integer-division condition and
the precondition assert. -/
theorem card_values_positive_and_failure_modes :
    (∀ (r s : String) (c : Card), Card.init r s = .ok c → 1 ≤ c.value) ∧
    (∀ (cards : List Card) (ops : List Op) (e : EvalErr),
      (∀ c ∈ cards, 1 ≤ c.value) → get_value cards ops = .error e →
      e = .nonIntegerDivision ∨ e = .assertionError) := by
  constructor
  · intro r s c h
    rw [Card.init] at h
    cases hl : Card.RANKS.lookup r with
    | none => rw [hl] at h; cases h
    | some v =>
      simp only [hl] at h
      by_cases hs : s ∈ Card.SUITS
      · rw [if_pos hs] at h
        injection h with h
        have hv : 1 ≤ v :=
          lookup_all_values Card.RANKS (by decide) r v hl
        rw [← h]
        exact hv
      · rw [if_neg hs] at h; cases h
  · intro cards ops e hall h
    rw [get_value.eq_def] at h
    by_cases hlen : cards.length = ops.length + 1
    · rw [if_pos hlen] at h
      cases cards with
      | nil => injection h with h; exact Or.inr h.symm
      | cons c rest =>
        exact evalLoop_error_cases rest ops c.value e
          (fun x hx => hall x (List.mem_cons_of_mem c hx)) h
    · rw [if_neg hlen] at h
      injection h with h
      exact Or.inr h.symm

/-- Witness for C10: the ace of hearts is built with value 1 ≥ 1, and the
mismatched call `get_value(fourAces, [+])` fails with one of the two
permitted conditions (the assert). -/
theorem card_values_positive_and_failure_modes_spot :
    (1 ≤ (Card.mk "A" "h" 1).value) ∧
    (EvalErr.assertionError = .nonIntegerDivision ∨
      EvalErr.assertionError = .assertionError) :=
  ⟨card_values_positive_and_failure_modes.1 "A" "h" ⟨"A", "h", 1⟩ (by decide),
   card_values_positive_and_failure_modes.2 fourAces [Op.add]
    .assertionError (by decide) (by decide)⟩

/-- Replace a card's suit with a fixed dummy, keeping rank and value. -/
def eraseSuit (c : Card) : Card := ⟨c.rank, "", c.value⟩

@[simp] lemma eraseSuit_rank (c : Card) : (eraseSuit c).rank = c.rank := rfl

@[simp] lemma eraseSuit_value (c : Card) : (eraseSuit c).value = c.value := rfl

lemma evalLoop_eraseSuit :
    ∀ (cs : List Card) (os : List Op) (v : Int),
      evalLoop v (cs.map eraseSuit) os = evalLoop v cs os := by
  intro cs
  induction cs with
  | nil => intro os v; rfl
  | cons c tl ih =>
    intro os v
    cases os with
    | nil => rfl
    | cons o os' =>
      rw [List.map_cons, evalLoop, evalLoop, eraseSuit_value]
      cases step v o c.value with
      | error e => rfl
      | ok v2 => exact ih os' v2

lemma get_value_eraseSuit (cs : List Card) (os : List Op) :
    get_value (cs.map eraseSuit) os = get_value cs os := by
  cases cs with
  | nil => rfl
  | cons c tl =>
    simp only [get_value, List.map_cons, List.length_cons, List.length_map]
    by_cases h : tl.length + 1 = os.length + 1
    · rw [if_pos h, if_pos h]
      exact evalLoop_eraseSuit tl os c.value
    · rw [if_neg h, if_neg h]

lemma opsLoop_eraseSuit (cs : List Card) (t : Int) :
    ∀ l : List (List Op),
      opsLoop (cs.map eraseSuit) t l = opsLoop cs t l := by
  intro l
  induction l with
  | nil => rfl
  | cons o rest ih => rw [opsLoop, opsLoop, get_value_eraseSuit, ih]

lemma get_possible_ops_eraseSuit (cs : List Card) (t : Int) :
    get_possible_ops (cs.map eraseSuit) t = get_possible_ops cs t := by
  rw [get_possible_ops, get_possible_ops, List.length_map, opsLoop_eraseSuit]

lemma renderSol_eraseSuit (cs : List Card) (os : List Op) :
    renderSol (cs.map eraseSuit) os = renderSol cs os := by
  have hcomp : Card.rank ∘ eraseSuit = Card.rank := rfl
  simp only [renderSol, List.zip_map_left, List.foldr_map, List.getLast?_map,
    Option.map_map, Prod.map, eraseSuit, id_eq, hcomp]

lemma picks_map (f : α → β) :
    ∀ l : List α,
      picks (l.map f) = (picks l).map (fun p => (f p.1, p.2.map f)) := by
  intro l
  induction l with
  | nil => rfl
  | cons x xs ih =>
    simp only [List.map_cons, picks, ih, List.map_map]
    constructor

lemma pyPermAux_map (f : α → β) :
    ∀ (n : Nat) (l : List α),
      pyPermAux n (l.map f) = (pyPermAux n l).map (List.map f) := by
  intro n
  induction n with
  | zero => intro l; rfl
  | succ n ih =>
    intro l
    simp only [pyPermAux, picks_map, List.flatMap_map, List.map_flatMap]
    apply List.flatMap_congr
    intro p _
    rw [ih, List.map_map, List.map_map]
    rfl

lemma pyPermutations_map (f : α → β) (l : List α) :
    pyPermutations (l.map f) = (pyPermutations l).map (List.map f) := by
  rw [pyPermutations, pyPermutations, List.length_map, pyPermAux_map]

lemma permLoop_eraseSuit (t : Int) :
    ∀ (ps : List (List Card)) (acc : List String),
      permLoop t (ps.map (List.map eraseSuit)) acc = permLoop t ps acc := by
  intro ps
  induction ps with
  | nil => intro acc; rfl
  | cons p rest ih =>
    intro acc
    rw [List.map_cons, permLoop, permLoop, get_possible_ops_eraseSuit]
    cases get_possible_ops p t with
    | error e => rfl
    | ok opss =>
      have hfun : (fun acc op_list => insertSol (renderSol (p.map eraseSuit) op_list) acc)
          = (fun (acc : List String) (op_list : List Op) =>
              insertSol (renderSol p op_list) acc) := by
        funext a ol
        rw [renderSol_eraseSuit]
      simp only []
      rw [hfun, ih]

lemma solve_eraseSuit (cs : List Card) (t : Int) :
    solve (cs.map eraseSuit) t = solve cs t := by
  rw [solve, solve, pyPermutations_map, permLoop_eraseSuit]

/-- A card is well formed when its value is the rank table's entry for its
rank, as `Card.__init__` guarantees. -/
def wfCard (c : Card) : Prop := Card.RANKS.lookup c.rank = some c.value

instance (c : Card) : Decidable (wfCard c) :=
  inferInstanceAs (Decidable (Card.RANKS.lookup c.rank = some c.value))

lemma ranks_determine_eraseSuit :
    ∀ (h1 h2 : List Card), (∀ c ∈ h1, wfCard c) → (∀ c ∈ h2, wfCard c) →
      h1.map Card.rank = h2.map Card.rank →
      h1.map eraseSuit = h2.map eraseSuit := by
  intro h1
  induction h1 with
  | nil =>
    intro h2 _ _ hr
    cases h2 with
    | nil => rfl
    | cons b t2 => simp at hr
  | cons a t1 ih =>
    intro h2 hw1 hw2 hr
    cases h2 with
    | nil => simp at hr
    | cons b t2 =>
      simp only [List.map_cons, List.cons.injEq] at hr ⊢
      obtain ⟨hrank, htl⟩ := hr
      have hwa := hw1 a (List.mem_cons_self a t1)
      have hwb := hw2 b (List.mem_cons_self b t2)
      rw [wfCard] at hwa hwb
      rw [hrank] at hwa
      have hval : a.value = b.value := by
        injection hwa.symm.trans hwb
      refine ⟨?_, ih t2 (fun c hc => hw1 c (List.mem_cons_of_mem a hc))
        (fun c hc => hw2 c (List.mem_cons_of_mem b hc)) htl⟩
      rw [eraseSuit, eraseSuit, hrank, hval]

lemma insertSol_nodup (s : String) (acc : List String) (h : acc.Nodup) :
    (insertSol s acc).Nodup := by
  rw [insertSol]
  by_cases hm : s ∈ acc
  · rw [if_pos hm]; exact h
  · rw [if_neg hm, List.nodup_append]
    refine ⟨h, List.nodup_singleton s, ?_⟩
    intro x hx hxs
    rw [List.mem_singleton] at hxs
    exact hm (hxs ▸ hx)

lemma foldl_insertSol_nodup (p : List Card) :
    ∀ (opss : List (List Op)) (acc : List String), acc.Nodup →
      (opss.foldl (fun a op_list => insertSol (renderSol p op_list) a) acc).Nodup := by
  intro opss
  induction opss with
  | nil => intro acc h; exact h
  | cons o rest ih =>
    intro acc h
    exact ih _ (insertSol_nodup _ _ h)

lemma permLoop_nodup (t : Int) :
    ∀ (ps : List (List Card)) (acc : List String), acc.Nodup →
      ∀ l : List String, permLoop t ps acc = .ok l → l.Nodup := by
  intro ps
  induction ps with
  | nil =>
    intro acc h l hl
    rw [permLoop] at hl
    injection hl with hl
    exact hl ▸ h
  | cons p rest ih =>
    intro acc h l hl
    rw [permLoop] at hl
    cases hops : get_possible_ops p t with
    | error e => rw [hops] at hl; cases hl
    | ok opss =>
      rw [hops] at hl
      exact ih _ (foldl_insertSol_nodup p opss acc h) l hl

/-- C9: the solution set depends only on the rank sequence of the hand:
well-formed hands with the same ranks in the same positions (suits free)
produce identical results, and the result is always duplicate-free, so
permutations that coincide after collapsing suit contribute at most one
entry. -/
theorem solve_rank_determined (h1 h2 : List Card) (t : Int)
    (hw1 : ∀ c ∈ h1, wfCard c) (hw2 : ∀ c ∈ h2, wfCard c)
    (hr : h1.map Card.rank = h2.map Card.rank) :
    solve h1 t = solve h2 t ∧
    ∀ l : List String, solve h1 t = .ok l → l.Nodup := by
  constructor
  · calc solve h1 t = solve (h1.map eraseSuit) t := (solve_eraseSuit h1 t).symm
      _ = solve (h2.map eraseSuit) t := by
          rw [ranks_determine_eraseSuit h1 h2 hw1 hw2 hr]
      _ = solve h2 t := solve_eraseSuit h2 t
  · intro l hl
    exact permLoop_nodup t (pyPermutations h1) [] List.nodup_nil l hl

/-- Witness for C9: the hands A♥ 8♣ and A♠ 8♦ give the same solutions for
target 9, and the concrete result list is duplicate-free. -/
theorem solve_rank_determined_spot :
    solve [⟨"A", "h", 1⟩, ⟨"8", "c", 8⟩] 9 =
      solve [⟨"A", "s", 1⟩, ⟨"8", "d", 8⟩] 9 ∧
    List.Nodup ["A + 8", "8 + A"] :=
  ⟨(solve_rank_determined [⟨"A", "h", 1⟩, ⟨"8", "c", 8⟩]
      [⟨"A", "s", 1⟩, ⟨"8", "d", 8⟩] 9 (by decide) (by decide) (by decide)).1,
   (solve_rank_determined [⟨"A", "h", 1⟩, ⟨"8", "c", 8⟩]
      [⟨"A", "s", 1⟩, ⟨"8", "d", 8⟩] 9 (by decide) (by decide) (by decide)).2
     ["A + 8", "8 + A"] (by decide)⟩
